import Mathlib

/-!
Verification of the MECP optimizer core of easymecp/mecpro.

The numerical routines (`effective_gradient`, `update_coords`,
`test_convergence` in `mecpro/mecp.py`, and the embedded Fortran
`Effective_Gradient` / `UpdateX` / `TestConvergence` in
`easymecp/easymecp.py`) operate on flat double-precision arrays.  They are
embedded here over an arbitrary linear ordered field `F`; the square root
(`math.sqrt` / `numpy.linalg.norm` / Fortran `SQRT`), the only non-field
operation the code uses, is passed in as an explicit function argument
`sqrt : F → F`, so every definition stays computable.  Theorems that need
genuine square-root behaviour assume `0 ≤ x → sqrt x * sqrt x = x` and
`0 ≤ x → 0 ≤ sqrt x`, which `Real.sqrt` satisfies; witnesses instantiate
either `F := ℚ` (when the claim does not depend on sqrt semantics) or
`F := ℝ` with `Real.sqrt`.

Division follows Lean's total-field convention `x / 0 = 0`; the spots where
the Python/Fortran code actually divides by zero (IEEE `nan`/`inf`) are
flagged in comments where they matter.
-/

namespace MECP

set_option maxHeartbeats 1000000
set_option maxRecDepth 10000

variable {F : Type} [LinearOrderedField F] {n : ℕ}

/-! ### Flat-vector helpers (numpy flat arrays / Fortran rank-1 arrays) -/

/-- `numpy.inner(x, y)` on flat arrays: the sum of elementwise products. -/
def dotL (x y : List F) : F := (List.zipWith (fun a b => a * b) x y).sum

/-- Elementwise difference of two flat arrays (`x - y` in numpy). -/
def vsub (x y : List F) : List F := List.zipWith (fun a b => a - b) x y

/-- Scalar times a flat array (`c * x` in numpy). -/
def smulL (c : F) (x : List F) : List F := x.map (fun a => c * a)

/-- Sum of squares of a flat array; `numpy.linalg.norm x = sqrt (sumSq x)`. -/
def sumSq (x : List F) : F := (x.map (fun a => a * a)).sum

/-! ### Effective gradient: `mecp.py` lines 212-243, and the Fortran
`Effective_Gradient` (easymecp.py lines 1147-1180), which computes the same
expressions elementwise with `facPP = 140`, `facP = 1`. -/

/-- `effective_gradient(energies, gradients)` from `mecp.py` lines 212-243.
Returns `(diff, par, effective)`:
`diff = g1 - g2`; `normdiff = linalg.norm(diff)`;
`par = g1 - (inner(g1,diff)/normdiff) * (diff/normdiff)`;
`perp = (e1-e2) * diff`; `effective = 140.0 * perp + 1.0 * par`.
There is no check for `normdiff == 0` in the source. -/
def effective_gradient (sqrt : F → F) (e1 e2 : F) (g1 g2 : List F) :
    List F × List F × List F :=
  let energy_delta := e1 - e2
  let diff := vsub g1 g2
  let normdiff := sqrt (dotL diff diff)
  let par := List.zipWith (fun a d => a - dotL g1 diff / normdiff * (d / normdiff)) g1 diff
  let perp := smulL energy_delta diff
  let effective := List.zipWith (fun p q => 140 * p + 1 * q) perp par
  (diff, par, effective)

/-! ### BFGS inverse-Hessian update

`update_coords` in `mecp.py` (lines 246-300) and the Fortran `UpdateX`
(easymecp.py lines 1504-1589).  The dense `nx × nx` matrices are modelled as
`Matrix (Fin n) (Fin n) F` and the flat coordinate/gradient arrays as
`Fin n → F`. -/

/-- The `else` branch of `update_coords`, `mecp.py` lines 258-279: the BFGS
inverse-Hessian update of the NumPy port.
`dgrad = g2 - g1`; `dcoords = c2 - c1`;
`lcollapse = asmatrix(dgrad) * hessian_in` (the row vector `dgradᵀ·H`);
`collapse = inner(dgrad, lcollapse)`; `denom = inner(dgrad, dcoords)`;
raises `MECPException` when `denom == 0.0` (lines 272-273), modelled as
`none`; otherwise returns
`hessian_in + (denom + collapse) * outer(dcoords, dcoords) / denom²
 - (outer(lcollapse, dcoords) + outer(dcoords, lcollapse)) / denom`
(the scalar divisions written as scalar actions on the outer products). -/
def bfgs_hessian_update (g1 g2 c1 c2 : Fin n → F) (hessian_in : Matrix (Fin n) (Fin n) F) :
    Option (Matrix (Fin n) (Fin n) F) :=
  let dgrad := fun i => g2 i - g1 i
  let dcoords := fun i => c2 i - c1 i
  let lcollapse := Matrix.vecMul dgrad hessian_in
  let collapse := Matrix.dotProduct dgrad lcollapse
  let denom := Matrix.dotProduct dgrad dcoords
  if denom = 0 then none
  else
    let u := ((denom + collapse) / (denom * denom)) • Matrix.vecMulVec dcoords dcoords
    let v := denom⁻¹ • (Matrix.vecMulVec lcollapse dcoords + Matrix.vecMulVec dcoords lcollapse)
    some (hessian_in + u - v)

/-- `mecp.py` lines 254-279: `hessian_out` of `update_coords` — the input
Hessian copied unchanged at step 0 (line 256), the BFGS update otherwise. -/
def update_coords_hessian (step : ℕ) (g1 g2 c1 c2 : Fin n → F)
    (hessian_in : Matrix (Fin n) (Fin n) F) : Option (Matrix (Fin n) (Fin n) F) :=
  if step = 0 then some hessian_in else bfgs_hessian_update g1 g2 c1 c2 hessian_in

/-- `mecp.py` line 281: the raw step before any length limiting,
`vector = -(numpy.matrix(g2) * hessian_out)`, i.e. `-(g2ᵀ·H)`. -/
def update_coords_raw_step (g2 : Fin n → F) (hessian_out : Matrix (Fin n) (Fin n) F) :
    Fin n → F :=
  fun i => -(Matrix.vecMul g2 hessian_out i)

/-- The driver loop (`mecp.py` lines 500-537) feeds each iteration's update
back in as `last_hess`; this folds `bfgs_hessian_update` over a list of
`(g1, g2, c1, c2)` inputs, failing as soon as one update raises. -/
def bfgs_update_seq (L : List ((Fin n → F) × (Fin n → F) × (Fin n → F) × (Fin n → F)))
    (H : Matrix (Fin n) (Fin n) F) : Option (Matrix (Fin n) (Fin n) F) :=
  match L with
  | [] => some H
  | q :: rest => (bfgs_hessian_update q.1 q.2.1 q.2.2.1 q.2.2.2 H).bind (bfgs_update_seq rest)

/-- The embedded Fortran `UpdateX` (easymecp.py lines 1525-1557), step > 0
branch, Sherman-Morrison form: `DelG = G_2 - G_1`; `DelX = X_2 - X_1`;
`HDelG = HI_1 · DelG`; `fac = 1/(DelG·DelX)`; `fae = DelG·HDelG`;
`fad = 1/fae`; `w = fac·DelX - fad·HDelG`;
`HI_2 = HI_1 + fac·DelX⊗DelX - fad·HDelG⊗HDelG + fae·w⊗w`.
The Fortran performs no check on either denominator. -/
def UpdateX_hessian (g1 g2 x1 x2 : Fin n → F) (hi1 : Matrix (Fin n) (Fin n) F) :
    Matrix (Fin n) (Fin n) F :=
  let DelG := fun i => g2 i - g1 i
  let DelX := fun i => x2 i - x1 i
  let HDelG := Matrix.mulVec hi1 DelG
  let fac := (Matrix.dotProduct DelG DelX)⁻¹
  let fae := Matrix.dotProduct DelG HDelG
  let fad := fae⁻¹
  let w := fun i => fac * DelX i - fad * HDelG i
  Matrix.of fun i j => hi1 i j + fac * DelX i * DelX j - fad * HDelG i * HDelG j + fae * w i * w j

/-- The embedded Fortran `UpdateX` (easymecp.py lines 1516-1523 and
1558-1563): the proposed step `ChgeX` before limiting.  At `Nstep = 0` with
`FFile = 0` it is literally `-.7d0 * G_2(i)` regardless of `HI_1`; otherwise
`ChgeX = -(HI_2 · G_2)` with `HI_2` the updated inverse Hessian. -/
def UpdateX_raw_step (nstep ffile : ℕ) (g1 g2 x1 x2 : Fin n → F)
    (hi1 : Matrix (Fin n) (Fin n) F) : Fin n → F :=
  if nstep = 0 ∧ ffile = 0 then fun i => -(7 / 10 : F) * g2 i
  else fun i => -(Matrix.mulVec (UpdateX_hessian g1 g2 x1 x2 hi1) g2 i)

/-! ### Step-length limiting

`mecp.py` lines 252 and 283-291, and identically the Fortran `UpdateX`
lines 1514-1516 and 1566-1584.  Note both sources bound the Euclidean norm
by `stpmax * N` (`stpmax_loose = stpmax * len(g2)`, `stpmax = STPMX * N`),
`N` being the full degree-of-freedom count, not `stpmax * sqrt(N)`. -/

/-- `numpy.fabs(vector).max()` (mecp.py line 288) and the Fortran loop
`lgstst` (lines 1576-1579, accumulator starting at `0.d0`): the largest
absolute entry, 0 for the empty list. -/
def maxAbs (l : List F) : F := l.foldl (fun a x => max a |x|) 0

/-- mecp.py lines 283-286: `stpl = linalg.norm(vector)`; if it exceeds
`stpmax_loose = stpmax * len(vector)` (line 252), rescale the vector to that
norm.  (`vector` has the length of `g2`.)  Fortran lines 1566-1575. -/
def first_rescale (sqrt : F → F) (stpmax : F) (vector : List F) : List F :=
  let stpmax_loose := stpmax * (vector.length : F)
  let stpl := sqrt (sumSq vector)
  if stpmax_loose < stpl then vector.map (fun x => x / stpl * stpmax_loose) else vector

/-- mecp.py lines 288-291: if the largest absolute component exceeds
`stpmax`, rescale the vector so it equals `stpmax`.  Fortran 1576-1584. -/
def second_rescale (stpmax : F) (vector : List F) : List F :=
  let max_comp := maxAbs vector
  if stpmax < max_comp then vector.map (fun x => x / max_comp * stpmax) else vector

/-- The full step-length limiting of `update_coords` (mecp.py lines 283-291):
the norm-based rescale followed by the component-based rescale. -/
def limit_step (sqrt : F → F) (stpmax : F) (vector : List F) : List F :=
  second_rescale stpmax (first_rescale sqrt stpmax vector)

/-! ### Convergence test

`test_convergence` in `mecp.py` lines 304-336; the Fortran `TestConvergence`
(easymecp.py lines 1405-1456) performs the same five strict comparisons. -/

/-- `rms(iterable)` from `mecp.py` lines 207-208:
`sqrt(mean(square(iterable)))`. -/
def rms (sqrt : F → F) (l : List F) : F := sqrt (sumSq l / (l.length : F))

/-- The five convergence thresholds (the `cutoffs` dict of `mecp.py` /
`TDE`, `TDXMax`, `TDXRMS`, `TGMax`, `TGRMS` of the Fortran). -/
structure Cutoffs (F : Type) where
  max_grad : F
  rms_grad : F
  max_chg : F
  rms_chg : F
  energy_diff : F

/-- `test_convergence(logfile, molecules, energies, eff_grad, cutoffs)` from
`mecp.py` lines 304-336 (log writes omitted — the function's value is the
conjunction `all(conv)`):
`dcoords = c1 - c2` elementwise; `max_delta = max(|dcoords|)`;
`max_grad = max(|eff_grad|)`; RMS via `rms`; `energy_diff = |e2 - e1|`;
converged iff all five metrics are strictly below their thresholds.
(Python's `max` on a nonempty array agrees with `maxAbs`; geometries are
nonempty.) -/
def test_convergence (sqrt : F → F) (c1 c2 : List F) (e1 e2 : F) (eff_grad : List F)
    (cutoffs : Cutoffs F) : Bool :=
  let dcoords := vsub c1 c2
  let max_delta := maxAbs dcoords
  let max_grad := maxAbs eff_grad
  let dcoords_rms := rms sqrt dcoords
  let eff_grad_rms := rms sqrt eff_grad
  let energy_diff := |e2 - e1|
  decide (max_grad < cutoffs.max_grad) && decide (eff_grad_rms < cutoffs.rms_grad) &&
    decide (max_delta < cutoffs.max_chg) && decide (dcoords_rms < cutoffs.rms_chg) &&
    decide (energy_diff < cutoffs.energy_diff)

/-! ### Report scanning

`MECPCalculation.check_current_iteration` (easymecp.py lines 601-622) scans
the accumulated, append-only `ReportFile` (written by `report`, lines
834-839) line by line. -/

/-- Python's `pat in line` substring test. -/
def containsSub (pat line : String) : Bool := decide (pat.toList <:+: line.toList)

/-- `check_current_iteration` (easymecp.py lines 601-622): for each line of
`ReportFile` in order, return `'OK'` if the line contains `'CONVERGED'`,
else `'ERROR'` if it contains `'ERROR'`; if no line contains either marker
the Python function falls through and returns `None`. -/
def check_current_iteration (lines : List String) : Option String :=
  match lines with
  | [] => none
  | line :: rest =>
    if containsSub "CONVERGED" line then some "OK"
    else if containsSub "ERROR" line then some "ERROR"
    else check_current_iteration rest

/-! ### Element lookup tables

`ELEMENTS` / `REVERSE_ELEMENTS` (easymecp.py lines 1046-1073) and the
geometry-line converters `element_symbol_to_number` /
`element_number_to_symbol` (lines 938-965). -/

/-- The `ELEMENTS` dict of easymecp.py lines 1046-1071, as an association
list in source order (118 entries, symbol to atomic number). -/
def ELEMENTS : List (String × ℕ) := [
  ("H", 1), ("He", 2), ("Li", 3), ("Be", 4), ("B", 5),
  ("C", 6), ("N", 7), ("O", 8), ("F", 9), ("Ne", 10),
  ("Na", 11), ("Mg", 12), ("Al", 13), ("Si", 14), ("P", 15),
  ("S", 16), ("Cl", 17), ("Ar", 18), ("K", 19), ("Ca", 20),
  ("Sc", 21), ("Ti", 22), ("V", 23), ("Cr", 24), ("Mn", 25),
  ("Fe", 26), ("Co", 27), ("Ni", 28), ("Cu", 29), ("Zn", 30),
  ("Ga", 31), ("Ge", 32), ("As", 33), ("Se", 34), ("Br", 35),
  ("Kr", 36), ("Rb", 37), ("Sr", 38), ("Y", 39), ("Zr", 40),
  ("Nb", 41), ("Mo", 42), ("Tc", 43), ("Ru", 44), ("Rh", 45),
  ("Pd", 46), ("Ag", 47), ("Cd", 48), ("In", 49), ("Sn", 50),
  ("Sb", 51), ("Te", 52), ("I", 53), ("Xe", 54), ("Cs", 55),
  ("Ba", 56), ("La", 57), ("Ce", 58), ("Pr", 59), ("Nd", 60),
  ("Pm", 61), ("Sm", 62), ("Eu", 63), ("Gd", 64), ("Tb", 65),
  ("Dy", 66), ("Ho", 67), ("Er", 68), ("Tm", 69), ("Yb", 70),
  ("Lu", 71), ("Hf", 72), ("Ta", 73), ("W", 74), ("Re", 75),
  ("Os", 76), ("Ir", 77), ("Pt", 78), ("Au", 79), ("Hg", 80),
  ("Tl", 81), ("Pb", 82), ("Bi", 83), ("Po", 84), ("At", 85),
  ("Rn", 86), ("Fr", 87), ("Ra", 88), ("Ac", 89), ("Th", 90),
  ("Pa", 91), ("U", 92), ("Np", 93), ("Pu", 94), ("Am", 95),
  ("Cm", 96), ("Bk", 97), ("Cf", 98), ("Es", 99), ("Fm", 100),
  ("Md", 101), ("No", 102), ("Lr", 103), ("Rf", 104), ("Db", 105),
  ("Sg", 106), ("Bh", 107), ("Hs", 108), ("Mt", 109), ("Ds", 110),
  ("Rg", 111), ("Cn", 112), ("Nh", 113), ("Fl", 114), ("Mc", 115),
  ("Lv", 116), ("Ts", 117), ("Og", 118)]

/-- Python dict lookup `ELEMENTS.get(s)`.  The keys are pairwise distinct
(part of the C10 theorem), so first-match lookup agrees with dict
semantics. -/
def elementsGet (s : String) : Option ℕ := (ELEMENTS.find? (fun p => p.1 == s)).map Prod.snd

/-- `REVERSE_ELEMENTS = dict((v, k) for (k, v) in ELEMENTS.items())`
(easymecp.py line 1073). -/
def REVERSE_ELEMENTS : List (ℕ × String) := ELEMENTS.map (fun p => (p.2, p.1))

/-- Python dict lookup `REVERSE_ELEMENTS.get(k)`; the keys (atomic numbers)
are pairwise distinct, so first-match lookup agrees with dict semantics. -/
def reverseGet (k : ℕ) : Option String :=
  (REVERSE_ELEMENTS.find? (fun p => p.1 == k)).map Prod.snd

/-- Python `str.isdigit` on a whitespace-split field: nonempty and all
digit characters. -/
def isdigitTok (s : String) : Bool := !s.toList.isEmpty && s.toList.all Char.isDigit

/-- Python `str.title()` restricted to a single alphabetic token (an element
symbol field): first character uppercased, the rest lowercased.  (Python's
`title` restarts capitalization after each non-letter, which cannot occur
inside an element symbol.) -/
def titleTok (s : String) : String :=
  match s.toList with
  | [] => ""
  | c :: cs => String.mk (c.toUpper :: cs.map Char.toLower)

/-- Python `int(...)` applied to a field of decimal digits. -/
def natOfTok (s : String) : ℕ := s.toList.foldl (fun a c => 10 * a + (c.toNat - 48)) 0

/-- Decimal digits of `m`, most significant first; `fuel` bounds the
recursion (any `fuel > m` is enough) so the definition is structural. -/
def natToDigits : ℕ → ℕ → List Char
  | 0, _ => []
  | fuel + 1, m =>
    if m < 10 then [Char.ofNat (48 + m)]
    else natToDigits fuel (m / 10) ++ [Char.ofNat (48 + m % 10)]

/-- Python `str(...)` of an int (the table misses yield `-1`, hence `ℤ`). -/
def strOfInt (z : ℤ) : String :=
  if z < 0 then String.mk (Char.ofNat 45 :: natToDigits z.natAbs.succ z.natAbs)
  else String.mk (natToDigits z.toNat.succ z.toNat)

/-- One geometry line of `element_symbol_to_number` (easymecp.py lines
941-949), modelled at the whitespace-field level: with more than 3 fields
and a non-digit leading field, the leading field becomes
`str(ELEMENTS.get(fields[0].title(), -1))`.  (The source edits the raw line
text with `str.replace`, which coincides with the field model exactly when
the replacement touches only the leading field.) -/
def element_symbol_to_number_line (fields : List String) : List String :=
  match fields with
  | [] => []
  | f :: rest =>
    if 3 < (f :: rest).length then
      if isdigitTok f then f :: rest
      else strOfInt ((elementsGet (titleTok f)).elim (-1) (fun k => (k : ℤ))) :: rest
    else f :: rest

/-- One geometry line of `element_number_to_symbol` (easymecp.py lines
956-964), at the whitespace-field level: with more than 3 fields and a
digit leading field, the leading field becomes
`REVERSE_ELEMENTS.get(int(fields[0]), 'LP')` (the source replaces only the
first occurrence, which is the leading field). -/
def element_number_to_symbol_line (fields : List String) : List String :=
  match fields with
  | [] => []
  | f :: rest =>
    if 3 < (f :: rest).length then
      if isdigitTok f then ((reverseGet (natOfTok f)).getD "LP") :: rest
      else f :: rest
    else f :: rest

/-- `element_symbol_to_number(fh, drop_blank=True)` over the lines of a
geometry file, each line given by its whitespace-split fields (a blank line
has no fields). -/
def element_symbol_to_number (drop_blank : Bool) (lines : List (List String)) :
    List (List String) :=
  (if drop_blank then lines.filter (fun l => !l.isEmpty) else lines).map
    element_symbol_to_number_line

/-- `element_number_to_symbol(fh, drop_blank=False)` over the lines of a
geometry file, each line given by its whitespace-split fields. -/
def element_number_to_symbol (drop_blank : Bool) (lines : List (List String)) :
    List (List String) :=
  (if drop_blank then lines.filter (fun l => !l.isEmpty) else lines).map
    element_number_to_symbol_line


/-! ### Theorems -/

/-! ### Helper lemmas about the list operations -/

theorem dotL_map_mul (c : F) (x y : List F) :
    dotL x (y.map (fun b => c * b)) = c * dotL x y := by
  induction x generalizing y with
  | nil => simp [dotL]
  | cons a x ih =>
    cases y with
    | nil => simp [dotL]
    | cons b y =>
      simp only [dotL, List.map_cons, List.zipWith_cons_cons, List.sum_cons] at *
      rw [ih]
      ring

theorem zipWith_congr_fn {α β γ : Type} (f g : α → β → γ) (l1 : List α) (l2 : List β)
    (h : ∀ a b, f a b = g a b) : List.zipWith f l1 l2 = List.zipWith g l1 l2 := by
  have : f = g := funext fun a => funext (h a)
  rw [this]

/-- C1: for energies `(e1, e2)` and gradients `(g1, g2)` over the same
3N-length vector space with `g1 ≠ g2`, the effective-gradient computation
returns `diff = g1 - g2` (the perpendicular difference vector),
`par = g1` minus its Gram-Schmidt projection onto the normalized difference
vector `u = diff / ‖diff‖`, and
`effective = 140 * (e1 - e2) * diff + 1 * par` elementwise. -/
theorem c1_effective_gradient_formula (sqrt : F → F) (e1 e2 : F) (g1 g2 : List F)
    (hlen : g1.length = g2.length) (hne : g1 ≠ g2) :
    (effective_gradient sqrt e1 e2 g1 g2).1 = vsub g1 g2 ∧
    (effective_gradient sqrt e1 e2 g1 g2).2.1 =
      vsub g1
        (smulL (dotL g1 (smulL (sqrt (dotL (vsub g1 g2) (vsub g1 g2)))⁻¹ (vsub g1 g2)))
          (smulL (sqrt (dotL (vsub g1 g2) (vsub g1 g2)))⁻¹ (vsub g1 g2))) ∧
    (effective_gradient sqrt e1 e2 g1 g2).2.2 =
      List.zipWith (fun d p => 140 * (e1 - e2) * d + 1 * p) (vsub g1 g2)
        (effective_gradient sqrt e1 e2 g1 g2).2.1 := by
  refine ⟨rfl, ?_, ?_⟩
  · simp only [effective_gradient, vsub, smulL, List.map_map]
    rw [dotL_map_mul, List.zipWith_map_right]
    refine zipWith_congr_fn _ _ _ _ (fun a d => ?_)
    simp only [Function.comp]
    rw [div_eq_mul_inv, div_eq_mul_inv]
    ring
  · simp only [effective_gradient, smulL]
    rw [List.zipWith_map_left]
    refine zipWith_congr_fn _ _ _ _ (fun d p => ?_)
    ring

theorem c1_effective_gradient_formula_witness :
    (([1, 0] : List ℚ).length = ([0, 0] : List ℚ).length) ∧
    (([1, 0] : List ℚ) ≠ [0, 0]) ∧
    ((effective_gradient (F := ℚ) (fun x => x) 1 0 [1, 0] [0, 0]).1 = vsub [1, 0] [0, 0] ∧
     (effective_gradient (F := ℚ) (fun x => x) 1 0 [1, 0] [0, 0]).2.1 =
       vsub [1, 0]
         (smulL
           (dotL [1, 0]
             (smulL ((fun (x : ℚ) => x) (dotL (vsub [1, 0] [0, 0]) (vsub [1, 0] [0, 0])))⁻¹
               (vsub [1, 0] [0, 0])))
           (smulL ((fun (x : ℚ) => x) (dotL (vsub [1, 0] [0, 0]) (vsub [1, 0] [0, 0])))⁻¹
             (vsub [1, 0] [0, 0]))) ∧
     (effective_gradient (F := ℚ) (fun x => x) 1 0 [1, 0] [0, 0]).2.2 =
       List.zipWith (fun d p => 140 * ((1 : ℚ) - 0) * d + 1 * p) (vsub [1, 0] [0, 0])
         (effective_gradient (F := ℚ) (fun x => x) 1 0 [1, 0] [0, 0]).2.1) :=
  ⟨rfl, by norm_num,
   c1_effective_gradient_formula (fun x => x) 1 0 [1, 0] [0, 0] rfl (by norm_num)⟩

/-- C7 (evidence for the code bug): with `gA = gB` the difference vector has
zero norm, yet `effective_gradient` performs no check and returns a result
instead of failing.  In the source the division `inner(g1, diff) / normdiff`
is `0.0 / 0.0`, which numpy evaluates to `nan` with a `RuntimeWarning` (and
the Fortran `pp / npg` likewise divides by zero); no exception is raised and
the poisoned vectors are returned.  In this total-field model `x / 0 = 0`,
so the returned triple is `([0], [1], [1])`; either way a value is returned
where the spec requires a `DegenerateGradient` failure. -/
theorem c7_degenerate_gradient_no_failure :
    effective_gradient (F := ℚ) (fun x => x) 2 1 [1] [1] = ([0], [1], [1]) := by
  norm_num [effective_gradient, vsub, dotL, smulL]

/-- For a symmetric matrix, multiplying by a row vector on the left equals
multiplying by the same column vector on the right. -/
theorem vecMul_eq_mulVec_of_isSymm (H : Matrix (Fin n) (Fin n) F) (hH : H.IsSymm)
    (y : Fin n → F) : Matrix.vecMul y H = Matrix.mulVec H y := by
  rw [← Matrix.vecMul_transpose, hH]

/-- C2 (amended): for a symmetric input inverse Hessian, and under the
preconditions `dGrad·dCoord ≠ 0` and `dGrad·(H·dGrad) ≠ 0`, the NumPy port's
BFGS inverse-Hessian update (`update_coords`, mecp.py lines 258-279) and the
embedded Fortran `UpdateX`'s Sherman-Morrison-form update compute exactly
the same new inverse Hessian from the same inputs. -/
theorem c2_bfgs_update_matches_UpdateX (g1 g2 c1 c2 : Fin n → F)
    (H : Matrix (Fin n) (Fin n) F) (hsymm : H.IsSymm)
    (hdenom : Matrix.dotProduct (fun i => g2 i - g1 i) (fun i => c2 i - c1 i) ≠ 0)
    (hfae : Matrix.dotProduct (fun i => g2 i - g1 i)
      (Matrix.mulVec H (fun i => g2 i - g1 i)) ≠ 0) :
    bfgs_hessian_update g1 g2 c1 c2 H = some (UpdateX_hessian g1 g2 c1 c2 H) := by
  have hl := vecMul_eq_mulVec_of_isSymm H hsymm (fun i => g2 i - g1 i)
  simp only [bfgs_hessian_update, UpdateX_hessian, hl]
  rw [if_neg hdenom]
  congr 1
  ext i j
  simp only [Matrix.add_apply, Matrix.sub_apply, Matrix.smul_apply, Matrix.vecMulVec_apply,
    Matrix.of_apply, smul_eq_mul]
  field_simp
  ring

theorem c2_bfgs_update_matches_UpdateX_witness :
    (!![(2 : ℚ)] : Matrix (Fin 1) (Fin 1) ℚ).IsSymm ∧
    Matrix.dotProduct (fun i => (![1] : Fin 1 → ℚ) i - ![0] i)
      (fun i => (![3] : Fin 1 → ℚ) i - ![0] i) ≠ 0 ∧
    Matrix.dotProduct (fun i => (![1] : Fin 1 → ℚ) i - ![0] i)
      (Matrix.mulVec !![(2 : ℚ)] (fun i => (![1] : Fin 1 → ℚ) i - ![0] i)) ≠ 0 ∧
    bfgs_hessian_update (F := ℚ) ![0] ![1] ![0] ![3] !![2] =
      some (UpdateX_hessian ![0] ![1] ![0] ![3] !![2]) :=
  have h1 : (!![(2 : ℚ)] : Matrix (Fin 1) (Fin 1) ℚ).IsSymm := by
    ext i j
    fin_cases i <;> fin_cases j <;> rfl
  have h2 : Matrix.dotProduct (fun i => (![1] : Fin 1 → ℚ) i - ![0] i)
      (fun i => (![3] : Fin 1 → ℚ) i - ![0] i) ≠ 0 := by
    norm_num [Matrix.dotProduct, Fin.sum_univ_one]
  have h3 : Matrix.dotProduct (fun i => (![1] : Fin 1 → ℚ) i - ![0] i)
      (Matrix.mulVec !![(2 : ℚ)] (fun i => (![1] : Fin 1 → ℚ) i - ![0] i)) ≠ 0 := by
    norm_num [Matrix.dotProduct, Matrix.mulVec, Fin.sum_univ_one]
  ⟨h1, h2, h3, c2_bfgs_update_matches_UpdateX ![0] ![1] ![0] ![3] !![2] h1 h2 h3⟩

/-- C2 (counterexample to the claim as stated): with the non-symmetric input
`H = !![1, 2; 0, 1]`, `dGrad = (1,0)` and `dCoord = (1,0)` both preconditions
`dGrad·dCoord = 1 ≠ 0` and `dGrad·(H·dGrad) = 1 ≠ 0` hold, yet the NumPy
port (which builds its correction terms from the row vector `dGradᵀ·H`)
yields entry `(0,1) = 0` while the Fortran `UpdateX` (which uses the column
vector `H·dGrad`) yields entry `(0,1) = 2`: the two implementations disagree
when `H` is not symmetric. -/
theorem c2_bfgs_update_matches_UpdateX_counterexample :
    ((bfgs_hessian_update (F := ℚ) ![0, 0] ![1, 0] ![0, 0] ![1, 0] !![1, 2; 0, 1]).map
      (fun M => M 0 1)) = some 0 ∧
    (UpdateX_hessian (F := ℚ) ![0, 0] ![1, 0] ![0, 0] ![1, 0] !![1, 2; 0, 1]) 0 1 = 2 ∧
    Matrix.dotProduct (fun i => (![1, 0] : Fin 2 → ℚ) i - ![0, 0] i)
      (fun i => (![1, 0] : Fin 2 → ℚ) i - ![0, 0] i) ≠ 0 ∧
    Matrix.dotProduct (fun i => (![1, 0] : Fin 2 → ℚ) i - ![0, 0] i)
      (Matrix.mulVec !![(1 : ℚ), 2; 0, 1] (fun i => (![1, 0] : Fin 2 → ℚ) i - ![0, 0] i)) ≠ 0 := by
  refine ⟨?_, ?_, ?_, ?_⟩
  · norm_num [bfgs_hessian_update, Matrix.vecMul, Matrix.mulVec, Matrix.dotProduct,
      Matrix.vecMulVec_apply, Fin.sum_univ_two, Matrix.add_apply, Matrix.sub_apply,
      Matrix.smul_apply, smul_eq_mul, Matrix.vecHead, Matrix.vecTail, Function.comp,
      Matrix.cons_val_zero, Matrix.cons_val_one]
  · norm_num [UpdateX_hessian, Matrix.mulVec, Matrix.dotProduct, Fin.sum_univ_two,
      Matrix.of_apply, Matrix.vecHead, Matrix.vecTail, Function.comp,
      Matrix.cons_val_zero, Matrix.cons_val_one]
  · norm_num [Matrix.dotProduct, Fin.sum_univ_two]
  · norm_num [Matrix.dotProduct, Matrix.mulVec, Fin.sum_univ_two, Matrix.vecHead,
      Matrix.vecTail, Function.comp, Matrix.cons_val_zero, Matrix.cons_val_one]

/-- C5 (amended): at step 0 of a fresh run, the embedded Fortran `UpdateX`
proposes the raw step `-0.7 · G_2` regardless of the inverse Hessian it was
given, while the NumPy port passes the inverse Hessian through unchanged and
proposes the raw step `-(g2ᵀ·H)` — which equals `-0.7 · g2` exactly when the
given inverse Hessian is the fresh-run initialization `0.7 · Identity`. -/
theorem c5_step0_raw_step :
    (∀ (g1 g2 x1 x2 : Fin n → F) (hi1 : Matrix (Fin n) (Fin n) F),
      UpdateX_raw_step 0 0 g1 g2 x1 x2 hi1 = fun i => -(7 / 10 : F) * g2 i) ∧
    (∀ (g1 g2 c1 c2 : Fin n → F) (H : Matrix (Fin n) (Fin n) F),
      update_coords_hessian 0 g1 g2 c1 c2 H = some H) ∧
    (∀ g2 : Fin n → F,
      update_coords_raw_step g2 ((7 / 10 : F) • (1 : Matrix (Fin n) (Fin n) F)) =
        fun i => -(7 / 10 : F) * g2 i) := by
  refine ⟨fun g1 g2 x1 x2 hi1 => ?_, fun g1 g2 c1 c2 H => ?_, fun g2 => ?_⟩
  · simp [UpdateX_raw_step]
  · simp [update_coords_hessian]
  · funext i
    simp only [update_coords_raw_step, neg_inj]
    simp [Matrix.vecMul, Matrix.dotProduct, Matrix.smul_apply, Matrix.one_apply, smul_eq_mul,
      mul_ite, mul_one, mul_zero, Finset.sum_ite_eq]
    ring

/-- C5 (counterexample to the claim as stated): at step 0 with the inverse
Hessian `!![1]` (not `0.7 · Identity`) and effective gradient `(1)`, the
NumPy port's raw step is `-(g2ᵀ·H) = (-1)`, not `-0.7 · g2 = (-0.7)`: the
raw step does depend on the inverse Hessian the updater was given. -/
theorem c5_step0_raw_step_counterexample :
    update_coords_hessian (F := ℚ) 0 ![0] ![1] ![0] ![0] !![1] = some !![1] ∧
    update_coords_raw_step (F := ℚ) ![1] !![1] 0 = -1 ∧
    -(7 / 10 : ℚ) * (![1] : Fin 1 → ℚ) 0 ≠ -1 := by
  refine ⟨rfl, ?_, by norm_num⟩
  norm_num [update_coords_raw_step, Matrix.vecMul, Matrix.dotProduct, Fin.sum_univ_one]

theorem vecMulVec_self_isSymm (s : Fin n → F) : (Matrix.vecMulVec s s).IsSymm :=
  Matrix.IsSymm.ext fun i j => by simp [Matrix.vecMulVec_apply, mul_comm]

theorem vecMulVec_add_isSymm (x y : Fin n → F) :
    (Matrix.vecMulVec x y + Matrix.vecMulVec y x).IsSymm :=
  Matrix.IsSymm.ext fun i j => by
    simp only [Matrix.add_apply, Matrix.vecMulVec_apply]
    ring

/-- One BFGS update of the NumPy port preserves symmetry of the inverse
Hessian: both correction terms are symmetric matrices. -/
theorem bfgs_hessian_update_isSymm (g1 g2 c1 c2 : Fin n → F)
    (H : Matrix (Fin n) (Fin n) F) (hH : H.IsSymm) (H' : Matrix (Fin n) (Fin n) F)
    (h : bfgs_hessian_update g1 g2 c1 c2 H = some H') : H'.IsSymm := by
  simp only [bfgs_hessian_update] at h
  split at h
  · exact absurd h (by simp)
  · injection h with h
    subst h
    exact (hH.add ((vecMulVec_self_isSymm _).smul _)).sub ((vecMulVec_add_isSymm _ _).smul _)

theorem bfgs_update_seq_isSymm (L : List ((Fin n → F) × (Fin n → F) × (Fin n → F) × (Fin n → F)))
    (H : Matrix (Fin n) (Fin n) F) (hH : H.IsSymm) (H' : Matrix (Fin n) (Fin n) F)
    (h : bfgs_update_seq L H = some H') : H'.IsSymm := by
  induction L generalizing H with
  | nil =>
    simp only [bfgs_update_seq] at h
    injection h with h
    subst h
    exact hH
  | cons q rest ih =>
    simp only [bfgs_update_seq] at h
    cases hstep : bfgs_hessian_update q.1 q.2.1 q.2.2.1 q.2.2.2 H with
    | none => rw [hstep] at h; exact absurd h (by simp)
    | some H1 =>
      rw [hstep] at h
      rw [Option.some_bind'] at h
      exact ih H1 (bfgs_hessian_update_isSymm _ _ _ _ H hH H1 hstep) h

/-- C6: symmetry of the inverse-Hessian approximation is an invariant of the
updater: a symmetric input stays symmetric at step 0 (pass-through), after a
single BFGS update, and after any sequence of successful BFGS updates; the
fresh-run starting matrix `0.7 · Identity` is symmetric, so a run started
from it keeps a symmetric inverse Hessian at all times. -/
theorem c6_hessian_symmetry (H : Matrix (Fin n) (Fin n) F) (hH : H.IsSymm) :
    (∀ (step : ℕ) (g1 g2 c1 c2 : Fin n → F) (H' : Matrix (Fin n) (Fin n) F),
      update_coords_hessian step g1 g2 c1 c2 H = some H' → H'.IsSymm) ∧
    (∀ (L : List ((Fin n → F) × (Fin n → F) × (Fin n → F) × (Fin n → F)))
      (H' : Matrix (Fin n) (Fin n) F), bfgs_update_seq L H = some H' → H'.IsSymm) ∧
    ((7 / 10 : F) • (1 : Matrix (Fin n) (Fin n) F)).IsSymm := by
  refine ⟨fun step g1 g2 c1 c2 H' h => ?_, fun L H' h => bfgs_update_seq_isSymm L H hH H' h,
    Matrix.isSymm_one.smul _⟩
  by_cases hs : step = 0
  · simp only [update_coords_hessian, hs, if_pos] at h
    injection h with h
    subst h
    exact hH
  · rw [update_coords_hessian, if_neg hs] at h
    exact bfgs_hessian_update_isSymm _ _ _ _ H hH H' h

theorem c6_hessian_symmetry_witness :
    (!![(2 : ℚ), 1; 1, 3] : Matrix (Fin 2) (Fin 2) ℚ).IsSymm ∧
    ((∀ (step : ℕ) (g1 g2 c1 c2 : Fin 2 → ℚ) (H' : Matrix (Fin 2) (Fin 2) ℚ),
      update_coords_hessian step g1 g2 c1 c2 !![2, 1; 1, 3] = some H' → H'.IsSymm) ∧
    (∀ (L : List ((Fin 2 → ℚ) × (Fin 2 → ℚ) × (Fin 2 → ℚ) × (Fin 2 → ℚ)))
      (H' : Matrix (Fin 2) (Fin 2) ℚ), bfgs_update_seq L !![2, 1; 1, 3] = some H' → H'.IsSymm) ∧
    ((7 / 10 : ℚ) • (1 : Matrix (Fin 2) (Fin 2) ℚ)).IsSymm) :=
  have hH : (!![(2 : ℚ), 1; 1, 3] : Matrix (Fin 2) (Fin 2) ℚ).IsSymm := by
    ext i j
    fin_cases i <;> fin_cases j <;> rfl
  ⟨hH, c6_hessian_symmetry !![2, 1; 1, 3] hH⟩

/-- C8 (amended): in the NumPy port, every step > 0 input whose curvature
denominator `dGrad·dCoord` is exactly zero makes `update_coords` raise
(`MECPException`, mecp.py lines 272-273) before any new inverse Hessian or
geometry is built: the update returns no result. -/
theorem c8_zero_curvature_raises (step : ℕ) (g1 g2 c1 c2 : Fin n → F)
    (H : Matrix (Fin n) (Fin n) F) (hstep : step ≠ 0)
    (hz : Matrix.dotProduct (fun i => g2 i - g1 i) (fun i => c2 i - c1 i) = 0) :
    update_coords_hessian step g1 g2 c1 c2 H = none := by
  rw [update_coords_hessian, if_neg hstep]
  simp only [bfgs_hessian_update]
  rw [if_pos hz]

theorem c8_zero_curvature_raises_witness :
    ((1 : ℕ) ≠ 0) ∧
    Matrix.dotProduct (fun i => (![0] : Fin 1 → ℚ) i - ![0] i)
      (fun i => (![0] : Fin 1 → ℚ) i - ![0] i) = 0 ∧
    update_coords_hessian (F := ℚ) 1 ![0] ![0] ![0] ![0] !![3] = none :=
  have hz : Matrix.dotProduct (fun i => (![0] : Fin 1 → ℚ) i - ![0] i)
      (fun i => (![0] : Fin 1 → ℚ) i - ![0] i) = 0 := by
    norm_num [Matrix.dotProduct, Fin.sum_univ_one]
  ⟨one_ne_zero, hz, c8_zero_curvature_raises 1 ![0] ![0] ![0] ![0] !![3] one_ne_zero hz⟩

/-- C8 (counterexample to the claim as stated): the embedded Fortran
`UpdateX` performs no check at all on the curvature denominator: with
`DelG = 0` (so `DelG·DelX = 0`) it computes `fac = 1/0` and carries on,
producing an updated inverse Hessian and a proposed step instead of failing.
(In IEEE arithmetic `1/0 = +Inf`; Fortran continues silently.  In this
total-field model `0⁻¹ = 0`, so the produced update equals the input `H`;
either way a result is produced where the claim requires a failure.) -/
theorem c8_zero_curvature_raises_counterexample :
    Matrix.dotProduct (fun i => (![0] : Fin 1 → ℚ) i - ![0] i)
      (fun i => (![2] : Fin 1 → ℚ) i - ![0] i) = 0 ∧
    UpdateX_hessian (F := ℚ) ![0] ![0] ![0] ![2] !![5] = !![5] ∧
    UpdateX_raw_step (F := ℚ) 1 0 ![0] ![0] ![0] ![2] !![5] = ![0] := by
  refine ⟨by norm_num [Matrix.dotProduct, Fin.sum_univ_one], ?_, ?_⟩
  · ext i j
    fin_cases i <;> fin_cases j <;>
      norm_num [UpdateX_hessian, Matrix.mulVec, Matrix.dotProduct, Fin.sum_univ_one,
        Matrix.of_apply]
  · funext i
    fin_cases i
    norm_num [UpdateX_raw_step, UpdateX_hessian, Matrix.mulVec, Matrix.dotProduct,
      Fin.sum_univ_one, Matrix.of_apply]

theorem foldl_max_abs_eq (l : List F) (a : F) (ha : 0 ≤ a) :
    l.foldl (fun b x => max b |x|) a = max a (maxAbs l) := by
  induction l generalizing a with
  | nil => simp [maxAbs, max_eq_left ha]
  | cons x l ih =>
    have h1 : (0:F) ≤ max a |x| := le_trans ha (le_max_left _ _)
    have h2 : (0:F) ≤ max 0 |x| := le_max_left _ _
    simp only [maxAbs, List.foldl_cons] at *
    rw [ih _ h1, ih _ h2, max_eq_right (abs_nonneg x), max_assoc]

theorem maxAbs_cons (x : F) (l : List F) : maxAbs (x :: l) = max |x| (maxAbs l) := by
  have : maxAbs (x :: l) = l.foldl (fun b y => max b |y|) (max 0 |x|) := rfl
  rw [this, foldl_max_abs_eq _ _ (le_max_left _ _), max_eq_right (abs_nonneg x)]

theorem maxAbs_nonneg (l : List F) : 0 ≤ maxAbs l := by
  cases l with
  | nil => exact le_refl 0
  | cons x l => rw [maxAbs_cons]; exact le_trans (abs_nonneg x) (le_max_left _ _)

theorem abs_le_maxAbs (l : List F) (x : F) (hx : x ∈ l) : |x| ≤ maxAbs l := by
  induction l with
  | nil => cases hx
  | cons y l ih =>
    rw [maxAbs_cons]
    rcases List.mem_cons.1 hx with h | h
    · subst h; exact le_max_left _ _
    · exact le_trans (ih h) (le_max_right _ _)

theorem maxAbs_eq_abs_of_ne_nil (l : List F) (hl : l ≠ []) : ∃ x ∈ l, maxAbs l = |x| := by
  induction l with
  | nil => exact absurd rfl hl
  | cons y l ih =>
    cases l with
    | nil =>
      refine ⟨y, List.mem_singleton_self y, ?_⟩
      rw [maxAbs_cons]
      simp [maxAbs, max_eq_left (abs_nonneg y)]
    | cons z l =>
      obtain ⟨x, hx, hmax⟩ := ih (by simp)
      rw [maxAbs_cons]
      rcases le_total |y| (maxAbs (z :: l)) with h | h
      · exact ⟨x, List.mem_cons_of_mem y hx, by rw [max_eq_right h, hmax]⟩
      · exact ⟨y, List.mem_cons_self y _, by rw [max_eq_left h]⟩

theorem sumSq_cons (x : F) (l : List F) : sumSq (x :: l) = x * x + sumSq l := by
  simp [sumSq]

theorem sumSq_nonneg (l : List F) : 0 ≤ sumSq l := by
  induction l with
  | nil => simp [sumSq]
  | cons x l ih => rw [sumSq_cons]; exact add_nonneg (mul_self_nonneg x) ih

theorem sq_le_sumSq (l : List F) (x : F) (hx : x ∈ l) : x * x ≤ sumSq l := by
  induction l with
  | nil => cases hx
  | cons y l ih =>
    rw [sumSq_cons]
    rcases List.mem_cons.1 hx with h | h
    · subst h; exact le_add_of_nonneg_right (sumSq_nonneg l)
    · exact le_add_of_nonneg_left (mul_self_nonneg y) |>.trans (by linarith [ih h])

theorem sumSq_le_length_mul_sq (l : List F) :
    sumSq l ≤ (l.length : F) * (maxAbs l * maxAbs l) := by
  induction l with
  | nil => simp [sumSq]
  | cons x l ih =>
    rw [sumSq_cons, maxAbs_cons, List.length_cons]
    have hmx : maxAbs l ≤ max |x| (maxAbs l) := le_max_right _ _
    have hx : |x| ≤ max |x| (maxAbs l) := le_max_left _ _
    have h0 : (0:F) ≤ max |x| (maxAbs l) := le_trans (abs_nonneg x) hx
    have h1 : x * x ≤ max |x| (maxAbs l) * max |x| (maxAbs l) := by
      calc x * x = |x| * |x| := (abs_mul_abs_self x).symm
        _ ≤ max |x| (maxAbs l) * max |x| (maxAbs l) :=
            mul_le_mul hx hx (abs_nonneg x) h0
    have h2 : sumSq l ≤ (l.length : F) * (max |x| (maxAbs l) * max |x| (maxAbs l)) := by
      refine le_trans ih ?_
      have : maxAbs l * maxAbs l ≤ max |x| (maxAbs l) * max |x| (maxAbs l) :=
        mul_le_mul hmx hmx (maxAbs_nonneg l) h0
      exact mul_le_mul_of_nonneg_left this (Nat.cast_nonneg _)
    push_cast
    nlinarith [h1, h2]

theorem maxAbs_map_mul_right (l : List F) (c : F) (hc : 0 ≤ c) :
    maxAbs (l.map fun x => x * c) = maxAbs l * c := by
  induction l with
  | nil => simp [maxAbs]
  | cons x l ih =>
    rw [List.map_cons, maxAbs_cons, maxAbs_cons, ih, abs_mul, abs_of_nonneg hc,
      max_mul_of_nonneg _ _ hc]

theorem le_of_mulSelf_le (a b : F) (ha : 0 ≤ a) (hb : 0 ≤ b) (h : a * a ≤ b * b) : a ≤ b := by
  by_contra hlt
  push_neg at hlt
  exact absurd h (not_le.2 (mul_self_lt_mul_self hb hlt))

/-- C3 (amended): both rescales compare against bounds derived from
`stpmax * N` (`N` the degree-of-freedom count) and `stpmax` respectively;
their composition equals, for every positive `stpmax`, the single
max-component clamp: the raw step is returned unchanged when its largest
absolute coordinate is at most `stpmax`, and otherwise is uniformly rescaled
so its largest absolute coordinate equals exactly `stpmax`. -/
theorem c3_limit_step_eq_clamp (sqrt : F → F)
    (hsq : ∀ x : F, 0 ≤ x → sqrt x * sqrt x = x)
    (hsq0 : ∀ x : F, 0 ≤ x → 0 ≤ sqrt x)
    (stpmax : F) (hstp : 0 < stpmax) (v : List F) :
    limit_step sqrt stpmax v =
      if stpmax < maxAbs v then v.map (fun x => x / maxAbs v * stpmax) else v := by
  have hS : (0 : F) ≤ sumSq v := sumSq_nonneg v
  have hstpl2 : sqrt (sumSq v) * sqrt (sumSq v) = sumSq v := hsq _ hS
  have hstpl0 : 0 ≤ sqrt (sumSq v) := hsq0 _ hS
  have hm0 : 0 ≤ maxAbs v := maxAbs_nonneg v
  by_cases hB : stpmax * (v.length : F) < sqrt (sumSq v)
  case neg =>
    have hfr : first_rescale sqrt stpmax v = v := by
      simp only [first_rescale]
      rw [if_neg hB]
    rw [limit_step, hfr]
    rfl
  case pos =>
    have hvne : v ≠ [] := by
      intro h
      rw [h] at hB hstpl2
      simp only [sumSq, List.map_nil, List.sum_nil, List.length_nil, Nat.cast_zero,
        mul_zero] at hB hstpl2
      nlinarith
    have hn1 : (1 : F) ≤ (v.length : F) := by
      have h := List.length_pos.2 hvne
      exact_mod_cast h
    have hmS : maxAbs v * maxAbs v ≤ sumSq v := by
      obtain ⟨x, hx, hmax⟩ := maxAbs_eq_abs_of_ne_nil v hvne
      rw [hmax, abs_mul_abs_self]
      exact sq_le_sumSq v x hx
    have hSn := sumSq_le_length_mul_sq v
    have hB0 : (0 : F) ≤ stpmax * (v.length : F) := by positivity
    have hBB : stpmax * (v.length : F) * (stpmax * (v.length : F)) < sumSq v := by
      rw [← hstpl2]
      exact mul_self_lt_mul_self hB0 hB
    have hc0 : (0 : F) ≤ (v.length : F) := le_trans zero_le_one hn1
    have hkey : stpmax < maxAbs v := by
      by_contra hmle
      push_neg at hmle
      have h1 : maxAbs v * maxAbs v ≤ stpmax * stpmax := mul_le_mul hmle hmle hm0 hstp.le
      have h2 : sumSq v ≤ (v.length : F) * (stpmax * stpmax) :=
        le_trans hSn (mul_le_mul_of_nonneg_left h1 hc0)
      have h3 : (v.length : F) * 1 ≤ (v.length : F) * (v.length : F) :=
        mul_le_mul_of_nonneg_left hn1 hc0
      have h4 := mul_le_mul_of_nonneg_left h3 (mul_pos hstp hstp).le
      nlinarith [h2, hBB, h4]
    rw [if_pos hkey]
    have hfr : first_rescale sqrt stpmax v =
        v.map (fun x => x * ((stpmax * (v.length : F)) / sqrt (sumSq v))) := by
      simp only [first_rescale]
      rw [if_pos hB]
      have h2 : (fun x => x / sqrt (sumSq v) * (stpmax * (v.length : F))) =
          fun x : F => x * ((stpmax * (v.length : F)) / sqrt (sumSq v)) := by
        funext x
        ring
      rw [h2]
    have hstpl_pos : 0 < sqrt (sumSq v) := lt_of_le_of_lt hB0 hB
    have hscale0 : 0 ≤ (stpmax * (v.length : F)) / sqrt (sumSq v) := by positivity
    have hm1 : maxAbs (v.map fun x => x * ((stpmax * (v.length : F)) / sqrt (sumSq v))) =
        maxAbs v * ((stpmax * (v.length : F)) / sqrt (sumSq v)) :=
      maxAbs_map_mul_right v _ hscale0
    have hmn : sqrt (sumSq v) ≤ (v.length : F) * maxAbs v := by
      have h5 : (1 : F) * ((v.length : F) * (maxAbs v * maxAbs v)) ≤
          (v.length : F) * ((v.length : F) * (maxAbs v * maxAbs v)) :=
        mul_le_mul_of_nonneg_right hn1 (by positivity)
      have h2 : sqrt (sumSq v) * sqrt (sumSq v) ≤
          ((v.length : F) * maxAbs v) * ((v.length : F) * maxAbs v) := by
        rw [hstpl2]
        nlinarith [hSn, h5]
      exact le_of_mulSelf_le _ _ hstpl0 (by positivity) h2
    have hm'_ge : stpmax ≤ maxAbs v * ((stpmax * (v.length : F)) / sqrt (sumSq v)) := by
      rw [mul_div_assoc', le_div_iff₀ hstpl_pos]
      have h6 := mul_le_mul_of_nonneg_left hmn hstp.le
      refine le_trans h6 (le_of_eq ?_)
      ring
    rw [limit_step, hfr]
    show second_rescale stpmax _ = _
    simp only [second_rescale, hm1]
    by_cases hsec : stpmax < maxAbs v * ((stpmax * (v.length : F)) / sqrt (sumSq v))
    · rw [if_pos hsec, List.map_map]
      have hcne : (stpmax * (v.length : F)) / sqrt (sumSq v) ≠ 0 := by positivity
      have h3 : ((fun x => x / (maxAbs v * ((stpmax * (v.length : F)) / sqrt (sumSq v))) *
            stpmax) ∘ (fun x => x * ((stpmax * (v.length : F)) / sqrt (sumSq v)))) =
          fun x : F => x / maxAbs v * stpmax := by
        funext x
        simp only [Function.comp]
        rw [mul_div_mul_right _ _ hcne]
      rw [h3]
    · have heq : maxAbs v * ((stpmax * (v.length : F)) / sqrt (sumSq v)) = stpmax :=
        le_antisymm (not_lt.1 hsec) hm'_ge
      rw [if_neg hsec]
      have hmne : maxAbs v ≠ 0 := ne_of_gt (lt_trans hstp hkey)
      have hc : (stpmax * (v.length : F)) / sqrt (sumSq v) = stpmax / maxAbs v := by
        rw [eq_div_iff hmne, mul_comm]
        exact heq
      rw [hc]
      have h4 : (fun x => x * (stpmax / maxAbs v)) = fun x : F => x / maxAbs v * stpmax := by
        funext x
        ring
      rw [h4]

theorem c3_limit_step_eq_clamp_witness :
    (∀ x : ℝ, 0 ≤ x → Real.sqrt x * Real.sqrt x = x) ∧
    (∀ x : ℝ, 0 ≤ x → 0 ≤ Real.sqrt x) ∧
    ((0 : ℝ) < 1) ∧
    limit_step Real.sqrt 1 [2, 0] =
      (if (1 : ℝ) < maxAbs [2, 0] then ([2, 0] : List ℝ).map (fun x => x / maxAbs [2, 0] * 1)
       else [2, 0]) :=
  ⟨fun x hx => Real.mul_self_sqrt hx, fun x _ => Real.sqrt_nonneg x, one_pos,
   c3_limit_step_eq_clamp Real.sqrt (fun x hx => Real.mul_self_sqrt hx)
     (fun x _ => Real.sqrt_nonneg x) 1 one_pos [2, 0]⟩

/-- C3 (counterexample to the claim as stated): take `max_step_length = 1`
and the raw step `[3, 0, 0, 0]` (4 degrees of freedom).  Its Euclidean norm
is `3`, which exceeds `max_step_length * sqrt(DOF) = 2`, so by the claim the
first rescale must shrink the vector to that bound — but the code compares
the norm against `max_step_length * DOF = 4` and leaves the vector
unchanged, with norm `3 ≠ 2`. -/
theorem c3_limit_step_eq_clamp_counterexample :
    1 * Real.sqrt ((([3, 0, 0, 0] : List ℝ).length : ℝ)) < Real.sqrt (sumSq [3, 0, 0, 0]) ∧
    first_rescale Real.sqrt 1 [3, 0, 0, 0] = [3, 0, 0, 0] ∧
    Real.sqrt (sumSq ([3, 0, 0, 0] : List ℝ)) ≠
      1 * Real.sqrt ((([3, 0, 0, 0] : List ℝ).length : ℝ)) := by
  have h9 : sumSq ([3, 0, 0, 0] : List ℝ) = 9 := by norm_num [sumSq]
  have hs9 : Real.sqrt 9 = 3 := by
    rw [show (9 : ℝ) = 3 ^ 2 by norm_num]
    exact Real.sqrt_sq (by norm_num)
  have hlen : ((([3, 0, 0, 0] : List ℝ).length : ℝ)) = 4 := by norm_num
  have hs4 : Real.sqrt 4 = 2 := by
    rw [show (4 : ℝ) = 2 ^ 2 by norm_num]
    exact Real.sqrt_sq (by norm_num)
  refine ⟨?_, ?_, ?_⟩
  · rw [h9, hs9, hlen, hs4]
    norm_num
  · simp only [first_rescale]
    rw [if_neg]
    rw [h9, hs9]
    norm_num
  · rw [h9, hs9, hlen, hs4]
    norm_num

/-- C4: the convergence checker reports convergence exactly when all five
metrics (max gradient element, RMS gradient, max coordinate displacement,
RMS displacement, absolute energy difference) are strictly below their
thresholds, and any metric exactly equal to its threshold forces the
not-converged verdict. -/
theorem c4_test_convergence_strict (sqrt : F → F) (c1 c2 : List F) (e1 e2 : F)
    (eff : List F) (cut : Cutoffs F) :
    (test_convergence sqrt c1 c2 e1 e2 eff cut = true ↔
      (maxAbs eff < cut.max_grad ∧ rms sqrt eff < cut.rms_grad ∧
       maxAbs (vsub c1 c2) < cut.max_chg ∧ rms sqrt (vsub c1 c2) < cut.rms_chg ∧
       |e2 - e1| < cut.energy_diff)) ∧
    ((maxAbs eff = cut.max_grad ∨ rms sqrt eff = cut.rms_grad ∨
      maxAbs (vsub c1 c2) = cut.max_chg ∨ rms sqrt (vsub c1 c2) = cut.rms_chg ∨
      |e2 - e1| = cut.energy_diff) →
      test_convergence sqrt c1 c2 e1 e2 eff cut = false) := by
  constructor
  · simp only [test_convergence, Bool.and_eq_true, decide_eq_true_eq]
    tauto
  · intro h
    rcases h with h | h | h | h | h <;>
      simp [test_convergence, h]

/-- C9: the scan is decided by the earliest line containing either marker
(`'CONVERGED'` wins on a line containing both, being tested first); it is
`none` exactly when no line has a marker; and whatever an earlier prefix of
the append-only report already decided stays decided after more lines are
appended. -/
theorem c9_check_current_iteration_spec (lines p s : List String) (r : String) :
    (check_current_iteration lines =
      (lines.find? (fun l => containsSub "CONVERGED" l || containsSub "ERROR" l)).map
        (fun l => if containsSub "CONVERGED" l then "OK" else "ERROR")) ∧
    (check_current_iteration lines = none ↔
      ∀ l ∈ lines, (containsSub "CONVERGED" l || containsSub "ERROR" l) = false) ∧
    (check_current_iteration p = some r → check_current_iteration (p ++ s) = some r) := by
  refine ⟨?_, ?_, ?_⟩
  · induction lines with
    | nil => rfl
    | cons l rest ih =>
      by_cases h1 : containsSub "CONVERGED" l
      · simp [check_current_iteration, h1, List.find?_cons]
      · by_cases h2 : containsSub "ERROR" l
        · simp [check_current_iteration, h1, h2, List.find?_cons]
        · simp only [check_current_iteration, h1, h2, List.find?_cons, Bool.or_self,
            if_neg, Bool.false_eq_true, not_false_eq_true, ite_false]
          exact ih
  · induction lines with
    | nil => simp [check_current_iteration]
    | cons l rest ih =>
      by_cases h1 : containsSub "CONVERGED" l
      · simp [check_current_iteration, h1]
      · by_cases h2 : containsSub "ERROR" l
        · simp [check_current_iteration, h1, h2]
        · rw [show check_current_iteration (l :: rest) = check_current_iteration rest by
            simp [check_current_iteration, h1, h2]]
          rw [ih]
          constructor
          · intro h l' hl'
            rcases List.mem_cons.1 hl' with hh | hh
            · subst hh
              simp [h1, h2]
            · exact h l' hh
          · intro h l' hl'
            exact h l' (List.mem_cons_of_mem l hl')
  · intro h
    induction p with
    | nil => exact absurd h (by simp [check_current_iteration])
    | cons l rest ih =>
      by_cases h1 : containsSub "CONVERGED" l
      · simp only [check_current_iteration, h1, if_true] at h ⊢
        simpa using h
      · by_cases h2 : containsSub "ERROR" l
        · simp only [check_current_iteration, h1, h2, if_true, if_false] at h ⊢
          simpa using h
        · have hcut : check_current_iteration (l :: rest) = check_current_iteration rest := by
            simp [check_current_iteration, h1, h2]
          have hcut2 : check_current_iteration (l :: (rest ++ s)) =
              check_current_iteration (rest ++ s) := by
            simp [check_current_iteration, h1, h2]
          rw [hcut] at h
          rw [List.cons_append, hcut2]
          exact ih h

/-- C10: the two element tables are mutually inverse — for every entry
`(S, k)` of `ELEMENTS`, `ELEMENTS` maps `S` to `k` and `REVERSE_ELEMENTS`
maps `k` back to `S`; both the 118 symbols and the 118 atomic numbers are
pairwise distinct (so the symbol-to-number map is injective); and a
geometry line whose leading field is a table symbol round-trips through
`element_symbol_to_number` followed by `element_number_to_symbol` back to
the original line (whenever the substitution touches only the leading
field, which is what the field-level model expresses). -/
theorem c10_elements_inverse_roundtrip :
    (∀ p ∈ ELEMENTS, elementsGet p.1 = some p.2 ∧ reverseGet p.2 = some p.1) ∧
    (ELEMENTS.map Prod.fst).Nodup ∧ (ELEMENTS.map Prod.snd).Nodup ∧
    ELEMENTS.length = 118 ∧
    (∀ (S : String) (k : ℕ) (rest : List String), (S, k) ∈ ELEMENTS →
      element_number_to_symbol_line (element_symbol_to_number_line (S :: rest)) = S :: rest) := by
  have hall : ∀ p ∈ ELEMENTS, titleTok p.1 = p.1 ∧ isdigitTok p.1 = false ∧
      elementsGet p.1 = some p.2 ∧ isdigitTok (strOfInt (p.2 : ℤ)) = true ∧
      natOfTok (strOfInt (p.2 : ℤ)) = p.2 ∧ reverseGet p.2 = some p.1 := by decide
  refine ⟨fun p hp => ⟨(hall p hp).2.2.1, (hall p hp).2.2.2.2.2⟩, by decide, by decide, by decide,
    fun S k rest hmem => ?_⟩
  obtain ⟨ht, hd, hg, hd2, hn, hr⟩ := hall (S, k) hmem
  by_cases hlen : 3 < (S :: rest).length
  · have h1 : element_symbol_to_number_line (S :: rest) = strOfInt (k : ℤ) :: rest := by
      simp only [element_symbol_to_number_line, if_pos hlen, hd, Bool.false_eq_true,
        not_false_eq_true, if_neg, ht, hg, Option.elim]
    rw [h1]
    have hlen2 : 3 < (strOfInt (k : ℤ) :: rest).length := by
      simpa using hlen
    simp only [element_number_to_symbol_line, if_pos hlen2, hd2, if_pos, hn, hr,
      Option.getD_some]
  · simp only [element_symbol_to_number_line, element_number_to_symbol_line, if_neg hlen]

end MECP
